import Mathlib

/-!
Verification development for the entity-lifecycle core of `ecs-rs`
(`src/entity.rs`).

The Rust code is shallowly embedded:

* `Entity(Id)` with `Id = u64` becomes a structure over `Nat` (the counter is
  treated as unbounded; Rust declares `u64` overflow a program error, and the
  spec treats identifiers as an unbounded monotonic counter).
* `IndexPool { recycled: Vec<usize>, next_index: usize }` becomes a structure
  over `List Nat`/`Nat`; `Vec::push`/`Vec::pop` act on the END of the list.
* `HashMap<Entity, IndexedEntity<T>>` becomes an association list
  `List (Entity × IndexedEntity)`; `insert` on a fresh key appends, `remove`
  erases the key, `contains_key` / indexing search by key.  The `PhantomData`
  universe tag has no runtime content and is dropped.
* Indexing a `HashMap` with a missing key panics in Rust; lookups that can
  panic therefore return `Option`, and `flush_queue` (which performs such
  lookups) returns `Option` as well — `none` models the panic.
* The external collaborators of `flush_queue` (`SystemManager.__activated`,
  `SystemManager.__deactivated`, `ComponentManager.__remove_all`) are
  observationally modelled by a trace of `Call`s emitted in invocation order;
  they have no way to mutate the manager (in Rust, `self` is exclusively
  borrowed during the flush).
-/

/-- `pub type Id = u64;` — identifier payload, modelled as `Nat` (the name
`Id` itself is taken by Lean's core monad). -/
abbrev EntityId := Nat

/-- `pub struct Entity(Id);` -/
structure Entity where
  id : EntityId
deriving DecidableEq, Repr

/-- `Entity::nil()` — the reserved nil identifier. -/
def Entity.nil : Entity := ⟨0⟩

/-- `pub struct IndexedEntity<T>(usize, Entity, PhantomData<T>);`
`index` is field `.0`, `entity` is field `.1`; the phantom tag is dropped. -/
structure IndexedEntity where
  index : Nat
  entity : Entity
deriving DecidableEq, Repr

/-- `enum Event { BuildEntity(Entity), RemoveEntity(Entity) }` -/
inductive Event where
  | BuildEntity (e : Entity)
  | RemoveEntity (e : Entity)
deriving DecidableEq, Repr

/-- The entity carried by a lifecycle event. -/
def Event.entity : Event → Entity
  | .BuildEntity e => e
  | .RemoveEntity e => e

/-- Is this event a `RemoveEntity` event? -/
def Event.isRemove : Event → Bool
  | .BuildEntity _ => false
  | .RemoveEntity _ => true

/-- Is this event a `BuildEntity` event? -/
def Event.isBuild : Event → Bool
  | .BuildEntity _ => true
  | .RemoveEntity _ => false

/-- Observable calls made to the external collaborators during
`flush_queue`, in invocation order: `s.__activated(EntityData(ie), ..)`,
`s.__deactivated(EntityData(ie), ..)`, `c.__remove_all(ie)`. -/
inductive Call where
  | activated (ie : IndexedEntity)
  | deactivated (ie : IndexedEntity)
  | removeAll (ie : IndexedEntity)
deriving DecidableEq, Repr

/-- `struct IndexPool { recycled: Vec<usize>, next_index: usize }` -/
structure IndexPool where
  recycled : List Nat
  next_index : Nat
deriving DecidableEq, Repr

/-- `IndexPool::new()` -/
def IndexPool.new : IndexPool := ⟨[], 0⟩

/-- `IndexPool::count(&self) -> usize { self.next_index - self.recycled.len() }` -/
def IndexPool.count (p : IndexPool) : Nat :=
  p.next_index - p.recycled.length

/-- `IndexPool::get_index(&mut self) -> usize`: `self.recycled.pop()` pops the
LAST element of the `Vec`; on `None`, bump `next_index` and return the old
value.  Returns the index together with the updated pool. -/
def IndexPool.get_index (p : IndexPool) : Nat × IndexPool :=
  match p.recycled.getLast? with
  | some id => (id, { p with recycled := p.recycled.dropLast })
  | none => (p.next_index, { p with next_index := p.next_index + 1 })

/-- `IndexPool::return_id(&mut self, id: usize) { self.recycled.push(id) }` —
pushes onto the END of the `Vec`. -/
def IndexPool.return_id (p : IndexPool) (id : Nat) : IndexPool :=
  { p with recycled := p.recycled ++ [id] }

/-- `HashMap::contains_key` on the association list. -/
def containsKey (m : List (Entity × IndexedEntity)) (k : Entity) : Bool :=
  m.any (fun kv => decide (kv.1 = k))

/-- `HashMap` lookup (`&self.entities[entity]` / `HashMap::remove`'s found
value) on the association list. -/
def lookupKey (m : List (Entity × IndexedEntity)) (k : Entity) :
    Option IndexedEntity :=
  (m.find? (fun kv => decide (kv.1 = k))).map (fun kv => kv.2)

/-- `HashMap::remove`'s effect on the key set: erase the binding. -/
def eraseKey (m : List (Entity × IndexedEntity)) (k : Entity) :
    List (Entity × IndexedEntity) :=
  m.filter (fun kv => decide (kv.1 ≠ k))

/-- `HashMap::insert` for a key: replaces an existing binding, otherwise
appends.  (`EntityManager::create` only ever inserts fresh keys.) -/
def insertKey (m : List (Entity × IndexedEntity)) (k : Entity)
    (v : IndexedEntity) : List (Entity × IndexedEntity) :=
  if containsKey m k then
    m.map (fun kv => if kv.1 = k then (k, v) else kv)
  else
    m ++ [(k, v)]

/-- `pub struct EntityManager<T>` — indices pool, entity map, event queue and
identifier counter. -/
structure EntityManager where
  indices : IndexPool
  entities : List (Entity × IndexedEntity)
  event_queue : List Event
  next_id : EntityId
deriving DecidableEq, Repr

/-- `EntityManager::new()` -/
def EntityManager.new : EntityManager :=
  { indices := IndexPool.new, entities := [], event_queue := [], next_id := 0 }

/-- `EntityManager::count(&self) -> usize { self.indices.count() }` -/
def EntityManager.count (m : EntityManager) : Nat :=
  m.indices.count

/-- `EntityManager::indexed(&self, entity) -> &IndexedEntity<T>` —
`&self.entities[entity]` panics when the key is absent; `none` models the
panic. -/
def EntityManager.indexed (m : EntityManager) (e : Entity) :
    Option IndexedEntity :=
  lookupKey m.entities e

/-- `EntityManager::is_valid(&self, entity) -> bool` — map membership. -/
def EntityManager.is_valid (m : EntityManager) (e : Entity) : Bool :=
  containsKey m.entities e

/-- `EntityManager::create(&mut self) -> Entity`: increment `next_id`, build
`Entity(next_id)`, allocate an index from the pool, insert the binding,
return the entity (paired here with the updated manager). -/
def EntityManager.create (m : EntityManager) : Entity × EntityManager :=
  let nid := m.next_id + 1
  let ret : Entity := ⟨nid⟩
  let alloc := m.indices.get_index
  (ret,
    { m with
      next_id := nid
      indices := alloc.2
      entities := insertKey m.entities ret ⟨alloc.1, ret⟩ })

/-- `EntityManager::remove(&mut self, entity)`:
`self.entities.remove(entity).map(|e| self.indices.return_id(e.index()))` —
when the key is absent, `HashMap::remove` returns `None` and nothing
happens. -/
def EntityManager.remove (m : EntityManager) (e : Entity) : EntityManager :=
  match lookupKey m.entities e with
  | some ie =>
      { m with
        entities := eraseKey m.entities e
        indices := m.indices.return_id ie.index }
  | none => m

/-- `EntityManager::remove_entity(&mut self, entity)` — only enqueues a
`RemoveEntity` event; the map is untouched. -/
def EntityManager.remove_entity (m : EntityManager) (e : Entity) :
    EntityManager :=
  { m with event_queue := m.event_queue ++ [Event.RemoveEntity e] }

/-- `EntityManager::create_entity(&mut self, builder, c)`: `create()`, run the
builder against the fresh indexed entity (a components-side effect with no
access to the manager), enqueue `BuildEntity`. -/
def EntityManager.create_entity (m : EntityManager) : Entity × EntityManager :=
  let r := m.create
  (r.1, { r.2 with event_queue := r.2.event_queue ++ [Event.BuildEntity r.1] })

/-- The loop body of `flush_queue` over the drained event list: for
`BuildEntity`, look up the (panicking on absence) indexed entity and notify
activation; for `RemoveEntity`, look up, notify deactivation, strip all
components, then `remove`.  Returns the final manager and the collaborator
call trace; `none` models a panic of `indexed`. -/
def EntityManager.processEvents (m : EntityManager) :
    List Event → Option (EntityManager × List Call)
  | [] => some (m, [])
  | Event.BuildEntity e :: rest =>
      match m.indexed e with
      | none => none
      | some ie =>
          match m.processEvents rest with
          | none => none
          | some r => some (r.1, Call.activated ie :: r.2)
  | Event.RemoveEntity e :: rest =>
      match m.indexed e with
      | none => none
      | some ie =>
          match (m.remove e).processEvents rest with
          | none => none
          | some r =>
              some (r.1, Call.deactivated ie :: Call.removeAll ie :: r.2)

/-- `EntityManager::flush_queue`: `mem::replace` empties the queue, then the
snapshot is processed in FIFO order.  The collaborators cannot touch the
queue (they never see the manager), so the queue after a successful flush is
exactly the empty vector installed by `mem::replace`. -/
def EntityManager.flush_queue (m : EntityManager) :
    Option (EntityManager × List Call) :=
  EntityManager.processEvents { m with event_queue := [] } m.event_queue

/-- Serialized words emitted by `IndexPool`'s `CerealData::write`: recycled
count, each recycled index, then `next_index` (each `u64` word kept
abstract as one `Nat`). -/
def IndexPool.write (p : IndexPool) : List Nat :=
  p.recycled.length :: p.recycled ++ [p.next_index]

/-- Modelled from the spec: the `HashMap` encoding is supplied by the external
`cereal` collaborator, absent from this repository; §6 only fixes its place
in the layout (after the pool, before the counter), so it is modelled as a
length-prefixed list of (id, index, id) word triples. -/
def entitiesWrite (es : List (Entity × IndexedEntity)) : List Nat :=
  es.length :: es.flatMap (fun kv => [kv.1.id, kv.2.index, kv.2.entity.id])

/-- `CerealData::write` for `EntityManager`: refuse when the event queue is
non-empty (before writing anything), otherwise emit pool, map, counter. -/
def EntityManager.write (m : EntityManager) : Except String (List Nat) :=
  if m.event_queue.length ≠ 0 then
    Except.error "Please flush events before serialising the world"
  else
    Except.ok (m.indices.write ++ entitiesWrite m.entities ++ [m.next_id])

/-- `EntityManager::iter` — the `Values` iterator over the map, as the list of
indexed entities in map order. -/
def EntityManager.iter (m : EntityManager) : List IndexedEntity :=
  m.entities.map (fun kv => kv.2)

/-- One public mutating call on the manager.  `remove_entity` takes an
arbitrary caller-chosen identifier. -/
inductive Op where
  | create
  | create_entity
  | remove_entity (e : Entity)
  | flush
deriving DecidableEq, Repr

/-- Run a sequence of public calls from a starting manager, collecting every
identifier returned by `create` (directly or inside `create_entity`) in call
order.  A flush that panics aborts the run (`none`), exactly as a Rust panic
ends the program. -/
def runOps : EntityManager → List Op → Option (EntityManager × List Entity)
  | m, [] => some (m, [])
  | m, Op.create :: rest =>
      let r := m.create
      (runOps r.2 rest).map (fun q => (q.1, r.1 :: q.2))
  | m, Op.create_entity :: rest =>
      let r := m.create_entity
      (runOps r.2 rest).map (fun q => (q.1, r.1 :: q.2))
  | m, Op.remove_entity e :: rest => runOps (m.remove_entity e) rest
  | m, Op.flush :: rest => do
      let r ← m.flush_queue
      runOps r.1 rest

/-- Manager states reachable from `EntityManager::new()` through the public
API (`create`, `create_entity`, `remove_entity` with an arbitrary argument,
and a non-panicking `flush_queue`). -/
inductive Reachable : EntityManager → Prop where
  | base : Reachable EntityManager.new
  | create {m : EntityManager} : Reachable m → Reachable m.create.2
  | create_entity {m : EntityManager} : Reachable m → Reachable m.create_entity.2
  | remove_entity {m : EntityManager} (e : Entity) :
      Reachable m → Reachable (m.remove_entity e)
  | flush {m m' : EntityManager} {tr : List Call} :
      Reachable m → m.flush_queue = some (m', tr) → Reachable m'

/-- Modelled from the spec (§4.2 `flush`), for comparison with
`flush_queue`: drain the event log in FIFO order; for each
`FinalizeCreation(id)` look up the still-present indexed identifier and
notify activation; for each `Remove(id)` look up the indexed identifier,
notify deactivation, strip all attributes, then remove the binding from the
map.  Only the notification trace is computed here. -/
def flushSpecTrace (entities : List (Entity × IndexedEntity)) :
    List Event → Option (List Call)
  | [] => some []
  | Event.BuildEntity e :: rest =>
      match lookupKey entities e with
      | none => none
      | some ie =>
          match flushSpecTrace entities rest with
          | none => none
          | some tr => some (Call.activated ie :: tr)
  | Event.RemoveEntity e :: rest =>
      match lookupKey entities e with
      | none => none
      | some ie =>
          match flushSpecTrace (eraseKey entities e) rest with
          | none => none
          | some tr => some (Call.deactivated ie :: Call.removeAll ie :: tr)

/-- Is this call `activated` for (the entity with identifier) `e`? -/
def Call.isActivatedOf (e : Entity) : Call → Bool
  | .activated ie => decide (ie.entity = e)
  | _ => false

/-- Is this call `deactivated` for `e`? -/
def Call.isDeactivatedOf (e : Entity) : Call → Bool
  | .deactivated ie => decide (ie.entity = e)
  | _ => false

/-- Is this call `removeAll` for `e`? -/
def Call.isRemoveAllOf (e : Entity) : Call → Bool
  | .removeAll ie => decide (ie.entity = e)
  | _ => false

/-- `FilteredEntityIter::next`: advance the inner iterator until an element
passes `aspect.check`; return it with the remaining inner elements, or
`none` at exhaustion.  The inner iterator is its list of pending elements,
the aspect and component view are fused into one boolean predicate. -/
def filteredNext {α : Type} (p : α → Bool) : List α → Option (α × List α)
  | [] => none
  | x :: rest => if p x then some (x, rest) else filteredNext p rest

/-- The remainder handed back by `filteredNext` is strictly shorter: each
call to `next` consumes at least the element it returns. -/
theorem filteredNext_length_lt {α : Type} (p : α → Bool) :
    ∀ (l : List α) (x : α) (rest : List α),
      filteredNext p l = some (x, rest) → rest.length < l.length := by
  intro l
  induction l with
  | nil => intro x rest h; simp [filteredNext] at h
  | cons y ys ih =>
      intro x rest h
      by_cases hp : p y
      · simp [filteredNext, hp] at h
        simp [h.2.symm, Nat.lt_succ_self]
      · simp [filteredNext, hp] at h
        exact Nat.lt_trans (ih x rest h) (Nat.lt_succ_self _)

/-- Driving the filtered iterator to exhaustion: call `next` repeatedly and
collect the yielded elements in order. -/
def filteredCollect {α : Type} (p : α → Bool) (l : List α) : List α :=
  match h : filteredNext p l with
  | none => []
  | some (x, rest) => x :: filteredCollect p rest
termination_by l.length
decreasing_by exact filteredNext_length_lt p l x rest h

/-! ### Association-list lemmas -/

theorem containsKey_eq_false_iff (m : List (Entity × IndexedEntity))
    (k : Entity) : containsKey m k = false ↔ ∀ kv ∈ m, kv.1 ≠ k := by
  simp [containsKey]

theorem lookupKey_eq_none_of_not_contains (m : List (Entity × IndexedEntity))
    (k : Entity) (h : containsKey m k = false) : lookupKey m k = none := by
  unfold lookupKey
  have hf : m.find? (fun kv => decide (kv.1 = k)) = none := by
    rw [List.find?_eq_none]
    intro x hx
    simpa using (containsKey_eq_false_iff m k).mp h x hx
  rw [hf]
  rfl

theorem lookupKey_isSome_of_contains (m : List (Entity × IndexedEntity))
    (k : Entity) (h : containsKey m k = true) :
    ∃ ie, lookupKey m k = some ie := by
  unfold containsKey at h
  rw [List.any_eq_true] at h
  obtain ⟨kv, hkv, hp⟩ := h
  unfold lookupKey
  rcases hfind : m.find? (fun kv => decide (kv.1 = k)) with _ | found
  · rw [List.find?_eq_none] at hfind
    exact absurd hp (hfind kv hkv)
  · exact ⟨found.2, by rw [hfind]; rfl⟩

theorem lookupKey_eq_some_mem (m : List (Entity × IndexedEntity)) (k : Entity)
    (ie : IndexedEntity) (h : lookupKey m k = some ie) :
    ∃ kv ∈ m, kv.1 = k ∧ kv.2 = ie := by
  unfold lookupKey at h
  rcases hfind : m.find? (fun kv => decide (kv.1 = k)) with _ | found
  · rw [hfind] at h; simp at h
  · rw [hfind] at h
    have hmem := List.mem_of_find?_eq_some hfind
    have hpred := List.find?_some hfind
    simp at hpred h
    exact ⟨found, hmem, hpred, h⟩

theorem containsKey_eraseKey_self (m : List (Entity × IndexedEntity))
    (k : Entity) : containsKey (eraseKey m k) k = false := by
  rw [containsKey_eq_false_iff]
  intro kv hkv
  have := List.of_mem_filter hkv
  simpa using this

theorem mem_of_mem_eraseKey (m : List (Entity × IndexedEntity)) (k : Entity)
    (kv : Entity × IndexedEntity) (h : kv ∈ eraseKey m k) : kv ∈ m :=
  List.mem_of_mem_filter h

theorem containsKey_eq_true_iff (m : List (Entity × IndexedEntity))
    (k : Entity) : containsKey m k = true ↔ ∃ kv ∈ m, kv.1 = k := by
  simp [containsKey]

theorem containsKey_eraseKey_ne (m : List (Entity × IndexedEntity))
    (k k' : Entity) (h : k' ≠ k) :
    containsKey (eraseKey m k) k' = containsKey m k' := by
  have h1 : containsKey (eraseKey m k) k' = true ↔ containsKey m k' = true := by
    rw [containsKey_eq_true_iff, containsKey_eq_true_iff]
    constructor
    · rintro ⟨kv, hkv, hk'⟩
      exact ⟨kv, mem_of_mem_eraseKey _ _ _ hkv, hk'⟩
    · rintro ⟨kv, hkv, hk'⟩
      refine ⟨kv, ?_, hk'⟩
      apply List.mem_filter.mpr
      refine ⟨hkv, ?_⟩
      rw [hk']
      simpa using h
  cases h2 : containsKey m k' with
  | false =>
      cases h3 : containsKey (eraseKey m k) k' with
      | false => rfl
      | true => exact absurd (h1.mp h3) (by simp [h2])
  | true => exact h1.mpr h2

theorem lookupKey_insertKey_fresh (m : List (Entity × IndexedEntity))
    (k : Entity) (v : IndexedEntity) (h : containsKey m k = false) :
    lookupKey (m ++ [(k, v)]) k = some v := by
  induction m with
  | nil => simp [lookupKey, List.find?]
  | cons kv rest ih =>
      have hk : kv.1 ≠ k := (containsKey_eq_false_iff _ k).mp h kv (by simp)
      have hrest : containsKey rest k = false := by
        rw [containsKey_eq_false_iff]
        intro kv' hkv'
        exact (containsKey_eq_false_iff _ k).mp h kv' (by simp [hkv'])
      simpa [lookupKey, List.find?, hk] using ih hrest

theorem lookupKey_insertKey_replace (m : List (Entity × IndexedEntity))
    (k : Entity) (v : IndexedEntity) (h : containsKey m k = true) :
    lookupKey (m.map (fun kv => if kv.1 = k then (k, v) else kv)) k = some v := by
  induction m with
  | nil => simp [containsKey] at h
  | cons kv rest ih =>
      by_cases hk : kv.1 = k
      · simp [lookupKey, List.find?, hk]
      · have hrest : containsKey rest k = true := by
          unfold containsKey at h ⊢
          simpa [List.any, hk] using h
        simpa [lookupKey, List.find?, hk] using ih hrest

theorem lookupKey_insertKey_self (m : List (Entity × IndexedEntity))
    (k : Entity) (v : IndexedEntity) :
    lookupKey (insertKey m k v) k = some v := by
  unfold insertKey
  by_cases h : containsKey m k
  · simpa [h] using lookupKey_insertKey_replace m k v h
  · have h' : containsKey m k = false := by simpa using h
    simpa [h'] using lookupKey_insertKey_fresh m k v h'

theorem contains_of_lookupKey_some (m : List (Entity × IndexedEntity))
    (k : Entity) (ie : IndexedEntity) (h : lookupKey m k = some ie) :
    containsKey m k = true := by
  obtain ⟨kv, hkv, hk, _⟩ := lookupKey_eq_some_mem m k ie h
  exact (containsKey_eq_true_iff m k).mpr ⟨kv, hkv, hk⟩

/-! ### Index-pool lemmas -/

theorem get_index_concat (p : IndexPool) (rs : List Nat) (a : Nat)
    (h : p.recycled = rs ++ [a]) :
    p.get_index = (a, ⟨rs, p.next_index⟩) := by
  unfold IndexPool.get_index
  rw [h]
  simp [List.getLast?_concat, List.dropLast_concat]

theorem get_index_nil (p : IndexPool) (h : p.recycled = []) :
    p.get_index = (p.next_index, ⟨[], p.next_index + 1⟩) := by
  unfold IndexPool.get_index
  rw [h]
  simp

/-! ### `create` lemmas -/

theorem create_indexed (m : EntityManager) :
    m.create.2.indexed m.create.1 =
      some ⟨(m.indices.get_index).1, m.create.1⟩ := by
  simp only [EntityManager.create, EntityManager.indexed]
  exact lookupKey_insertKey_self _ _ _

theorem create_is_valid_self (m : EntityManager) :
    m.create.2.is_valid m.create.1 = true := by
  have h := create_indexed m
  exact contains_of_lookupKey_some _ _ _ h

/-! ### `processEvents` lemmas -/

theorem processEvents_no_removes (evs : List Event) :
    ∀ (m : EntityManager) (r : EntityManager × List Call),
      (∀ ev ∈ evs, ev.isRemove = false) →
      m.processEvents evs = some r → r.1 = m := by
  induction evs with
  | nil =>
      intro m r _ h
      rw [EntityManager.processEvents] at h
      injection h with h
      rw [← h]
  | cons ev rest ih =>
      intro m r hno h
      cases ev with
      | BuildEntity e =>
          rw [EntityManager.processEvents] at h
          split at h
          · exact absurd h (by simp)
          · split at h
            · exact absurd h (by simp)
            · rename_i q hq
              injection h with h
              rw [← h]
              exact ih m q (fun ev hev => hno ev (by simp [hev])) hq
      | RemoveEntity e =>
          have := hno (Event.RemoveEntity e) (by simp)
          simp [Event.isRemove] at this

theorem processEvents_single_remove (evs : List Event) :
    ∀ (m : EntityManager) (a : Entity) (r : EntityManager × List Call),
      evs.filter Event.isRemove = [Event.RemoveEntity a] →
      m.processEvents evs = some r → r.1 = m.remove a := by
  induction evs with
  | nil => intro m a r hf _; simp at hf
  | cons ev rest ih =>
      intro m a r hf h
      cases ev with
      | BuildEntity e =>
          rw [List.filter_cons] at hf
          rw [if_neg (by simp [Event.isRemove])] at hf
          rw [EntityManager.processEvents] at h
          split at h
          · exact absurd h (by simp)
          · split at h
            · exact absurd h (by simp)
            · rename_i q hq
              injection h with h
              rw [← h]
              exact ih m a q hf hq
      | RemoveEntity e =>
          rw [List.filter_cons] at hf
          rw [if_pos (by simp [Event.isRemove])] at hf
          simp only [List.cons.injEq, Event.RemoveEntity.injEq] at hf
          obtain ⟨rfl, hrest⟩ := hf
          rw [EntityManager.processEvents] at h
          split at h
          · exact absurd h (by simp)
          · split at h
            · exact absurd h (by simp)
            · rename_i q hq
              injection h with h
              have hnone : ∀ ev ∈ rest, ev.isRemove = false := by
                intro ev hev
                by_contra hc
                have hm : ev ∈ List.filter Event.isRemove rest :=
                  List.mem_filter.mpr ⟨hev, by simpa using hc⟩
                rw [hrest] at hm
                simp at hm
              rw [← h]
              exact processEvents_no_removes rest (m.remove e) q hnone hq

theorem remove_eq_of_lookup (m : EntityManager) (e : Entity)
    (ie : IndexedEntity) (h : lookupKey m.entities e = some ie) :
    m.remove e = { m with entities := eraseKey m.entities e,
                          indices := m.indices.return_id ie.index } := by
  unfold EntityManager.remove
  rw [h]

theorem processEvents_total (evs : List Event) :
    ∀ (m : EntityManager),
      (∀ ev ∈ evs, containsKey m.entities ev.entity = true) →
      evs.Pairwise (fun a b => a.isRemove = true → a.entity ≠ b.entity) →
      ∃ r, m.processEvents evs = some r := by
  induction evs with
  | nil => intro m _ _; exact ⟨(m, []), rfl⟩
  | cons ev rest ih =>
      intro m h1 h2
      rw [List.pairwise_cons] at h2
      obtain ⟨hhead, htail⟩ := h2
      cases ev with
      | BuildEntity e =>
          have hc := h1 (Event.BuildEntity e) (by simp)
          obtain ⟨ie, hie⟩ := lookupKey_isSome_of_contains _ _ hc
          obtain ⟨q, hq⟩ := ih m (fun ev hev => h1 ev (by simp [hev])) htail
          refine ⟨(q.1, Call.activated ie :: q.2), ?_⟩
          rw [EntityManager.processEvents]
          rw [show m.indexed e = some ie from hie, hq]
      | RemoveEntity e =>
          have hc := h1 (Event.RemoveEntity e) (by simp)
          obtain ⟨ie, hie⟩ := lookupKey_isSome_of_contains _ _ hc
          have hrm := remove_eq_of_lookup m e ie hie
          have hrest : ∀ ev ∈ rest,
              containsKey (m.remove e).entities ev.entity = true := by
            intro ev hev
            have hne : ev.entity ≠ e :=
              Ne.symm (hhead ev hev (by simp [Event.isRemove]))
            rw [hrm]
            simpa [containsKey_eraseKey_ne _ _ _ hne] using
              h1 ev (by simp [hev])
          obtain ⟨q, hq⟩ := ih (m.remove e) hrest htail
          refine ⟨(q.1, Call.deactivated ie :: Call.removeAll ie :: q.2), ?_⟩
          rw [EntityManager.processEvents]
          rw [show m.indexed e = some ie from hie, hq]

/-! ### Claim theorems -/

/-- C10: calling the immediate removal operation `remove(e)` with an
identifier `e` that is not a key of the identifier map leaves the entire
manager state unchanged — in particular no index is returned to the pool. -/
theorem remove_missing_frame (m : EntityManager) (e : Entity)
    (h : m.is_valid e = false) : m.remove e = m := by
  unfold EntityManager.is_valid at h
  unfold EntityManager.remove
  rw [lookupKey_eq_none_of_not_contains m.entities e h]

/-- Witness for `remove_missing_frame` at a concrete input. -/
theorem remove_missing_frame_witness :
    EntityManager.new.is_valid ⟨1⟩ = false ∧
    EntityManager.new.remove ⟨1⟩ = EntityManager.new :=
  ⟨by decide, remove_missing_frame EntityManager.new ⟨1⟩ (by decide)⟩

/-- C8: serializing a manager whose event log is non-empty returns the
explicit recoverable error naming the pending-events cause and emits no
bytes (the model is pure, so the manager state is trivially unchanged);
serializing with an empty event log succeeds. -/
theorem write_rejects_pending (m : EntityManager) :
    (m.event_queue ≠ [] →
      m.write =
        Except.error "Please flush events before serialising the world") ∧
    (m.event_queue = [] → ∃ bs, m.write = Except.ok bs) := by
  constructor
  · intro h
    have hl : m.event_queue.length ≠ 0 := by
      simpa [List.length_eq_zero] using h
    unfold EntityManager.write
    rw [if_pos hl]
  · intro h
    refine ⟨m.indices.write ++ entitiesWrite m.entities ++ [m.next_id], ?_⟩
    have hl : ¬m.event_queue.length ≠ 0 := by simp [h]
    unfold EntityManager.write
    rw [if_neg hl]

/-- Witness for `write_rejects_pending`: one unflushed `Remove` pending
fails with the serialization-precondition error; a fresh manager
serializes fine. -/
theorem write_rejects_pending_witness :
    (EntityManager.new.remove_entity ⟨1⟩).write =
      Except.error "Please flush events before serialising the world" ∧
    ∃ bs, EntityManager.new.write = Except.ok bs :=
  ⟨(write_rejects_pending (EntityManager.new.remove_entity ⟨1⟩)).1
      (by decide),
   (write_rejects_pending EntityManager.new).2 rfl⟩

/-- C6 counterexample: in the pool with freed indices `[0, 1]`, the smallest
freed index is 0 (it is a member), yet `get_index` returns 1 — allocation
does not return the smallest previously-freed index. -/
theorem get_index_smallest_counterexample :
    0 ∈ (IndexPool.mk [0, 1] 2).recycled ∧
    (IndexPool.mk [0, 1] 2).get_index.1 = 1 := by decide

/-- C6 amended: when freed indices exist, `get_index` returns the MOST
RECENTLY freed index (the last element of `recycled`), not the smallest;
only when no freed index exists does it return the next unused index,
extending the range by one. -/
theorem get_index_most_recent (p : IndexPool) :
    (∀ h : p.recycled ≠ [],
        p.get_index =
          (p.recycled.getLast h, ⟨p.recycled.dropLast, p.next_index⟩)) ∧
    (p.recycled = [] →
        p.get_index = (p.next_index, ⟨[], p.next_index + 1⟩)) := by
  constructor
  · intro h
    exact get_index_concat p p.recycled.dropLast (p.recycled.getLast h)
      (List.dropLast_append_getLast h).symm
  · exact get_index_nil p

/-- Witness for `get_index_most_recent` at concrete pools. -/
theorem get_index_most_recent_witness :
    (IndexPool.mk [0, 1] 2).get_index = (1, ⟨[0], 2⟩) ∧
    (IndexPool.mk ([] : List Nat) 5).get_index = (5, ⟨[], 6⟩) := by
  constructor
  · rw [(get_index_most_recent (IndexPool.mk [0, 1] 2)).1 (by decide)]
    decide
  · exact (get_index_most_recent (IndexPool.mk [] 5)).2 rfl

/-- C7 counterexample: pass a never-issued identifier to `remove_entity` on
a fresh manager; the following `flush_queue` hits the panicking map index
inside `indexed` (`none` models the panic).  The core can therefore fail
on a user-visible path other than the serialization precondition. -/
theorem flush_queue_panics_counterexample :
    (EntityManager.new.remove_entity ⟨1⟩).flush_queue = none := by decide

/-- C7 amended: `create`, `create_entity`, `remove_entity`, `remove`,
`is_valid` and `count` never fail (they are total), but `flush_queue`
panics when it processes an event whose identifier is not live at that
point; it cannot fail when every queued event's identifier is a key of the
map and no `RemoveEntity` event precedes another event carrying the same
identifier. -/
theorem flush_queue_no_fail (m : EntityManager)
    (h1 : ∀ ev ∈ m.event_queue, containsKey m.entities ev.entity = true)
    (h2 : m.event_queue.Pairwise
        (fun a b => a.isRemove = true → a.entity ≠ b.entity)) :
    ∃ r, m.flush_queue = some r :=
  processEvents_total m.event_queue { m with event_queue := [] } h1 h2

/-- Witness for `flush_queue_no_fail`: a pending creation and a pending
removal of live entities flush without failure. -/
theorem flush_queue_no_fail_witness :
    ∃ r, (((EntityManager.new.create).2.create_entity).2.remove_entity
        ⟨1⟩).flush_queue = some r :=
  flush_queue_no_fail
    (((EntityManager.new.create).2.create_entity).2.remove_entity ⟨1⟩)
    (by decide) (by decide)

/-- C5: freed indices are reused in LIFO order: `get_index` returns the most
recently freed index when any exist, otherwise extends the range by one;
consequently, after a flush whose only pending removal is entity `a`, the
very next `create` is assigned `a`'s freed index. -/
theorem index_alloc_lifo :
    (∀ (p : IndexPool) (rs : List Nat) (x : Nat),
        p.recycled = rs ++ [x] → (p.get_index).1 = x) ∧
    (∀ p : IndexPool, p.recycled = [] →
        (p.get_index).1 = p.next_index ∧
        (p.get_index).2.next_index = p.next_index + 1) ∧
    (∀ (m m' : EntityManager) (tr : List Call) (a : Entity)
        (ia : IndexedEntity),
        m.event_queue.filter Event.isRemove = [Event.RemoveEntity a] →
        m.indexed a = some ia →
        m.flush_queue = some (m', tr) →
        m'.create.2.indexed m'.create.1 = some ⟨ia.index, m'.create.1⟩) := by
  refine ⟨?_, ?_, ?_⟩
  · intro p rs x h
    rw [get_index_concat p rs x h]
  · intro p h
    rw [get_index_nil p h]
    exact ⟨rfl, rfl⟩
  · intro m m' tr a ia hf hia hflush
    have h1 := processEvents_single_remove m.event_queue
      { m with event_queue := [] } a (m', tr) hf hflush
    have hrm := remove_eq_of_lookup { m with event_queue := [] } a ia hia
    rw [hrm] at h1
    have h1' : m' = { indices := m.indices.return_id ia.index,
                      entities := eraseKey m.entities a,
                      event_queue := [], next_id := m.next_id } := h1
    have hconcat : m'.indices.recycled = m.indices.recycled ++ [ia.index] := by
      rw [h1']
      rfl
    have hget := get_index_concat m'.indices m.indices.recycled ia.index
      hconcat
    have hidx := create_indexed m'
    rw [hget] at hidx
    exact hidx

/-- Witness for `index_alloc_lifo`: the spec scenario — create entities
1, 2, 3 (indices 0, 1, 2), remove entity 2, flush; the next `create`
receives entity 2's freed index 1. -/
theorem index_alloc_lifo_witness :
    (EntityManager.mk ⟨[1], 3⟩
        [(⟨1⟩, ⟨0, ⟨1⟩⟩), (⟨3⟩, ⟨2, ⟨3⟩⟩)] [] 3).create.2.indexed
      (EntityManager.mk ⟨[1], 3⟩
        [(⟨1⟩, ⟨0, ⟨1⟩⟩), (⟨3⟩, ⟨2, ⟨3⟩⟩)] [] 3).create.1 =
      some ⟨1, (EntityManager.mk ⟨[1], 3⟩
        [(⟨1⟩, ⟨0, ⟨1⟩⟩), (⟨3⟩, ⟨2, ⟨3⟩⟩)] [] 3).create.1⟩ :=
  index_alloc_lifo.2.2
    ((((EntityManager.new.create).2.create).2.create).2.remove_entity ⟨2⟩)
    (EntityManager.mk ⟨[1], 3⟩ [(⟨1⟩, ⟨0, ⟨1⟩⟩), (⟨3⟩, ⟨2, ⟨3⟩⟩)] [] 3)
    [Call.deactivated ⟨1, ⟨2⟩⟩, Call.removeAll ⟨1, ⟨2⟩⟩]
    ⟨2⟩ ⟨1, ⟨2⟩⟩ (by decide) (by decide) (by decide)

theorem remove_next_id (m : EntityManager) (e : Entity) :
    (m.remove e).next_id = m.next_id := by
  unfold EntityManager.remove
  split <;> rfl

theorem remove_event_queue (m : EntityManager) (e : Entity) :
    (m.remove e).event_queue = m.event_queue := by
  unfold EntityManager.remove
  split <;> rfl

theorem processEvents_next_id (evs : List Event) :
    ∀ (m : EntityManager) (r : EntityManager × List Call),
      m.processEvents evs = some r → r.1.next_id = m.next_id := by
  induction evs with
  | nil =>
      intro m r h
      rw [EntityManager.processEvents] at h
      injection h with h
      rw [← h]
  | cons ev rest ih =>
      intro m r h
      cases ev with
      | BuildEntity e =>
          rw [EntityManager.processEvents] at h
          split at h
          · exact absurd h (by simp)
          · split at h
            · exact absurd h (by simp)
            · rename_i q hq
              injection h with h
              rw [← h]
              exact ih m q hq
      | RemoveEntity e =>
          rw [EntityManager.processEvents] at h
          split at h
          · exact absurd h (by simp)
          · split at h
            · exact absurd h (by simp)
            · rename_i q hq
              injection h with h
              rw [← h]
              rw [ih (m.remove e) q hq]
              exact remove_next_id m e

theorem processEvents_event_queue (evs : List Event) :
    ∀ (m : EntityManager) (r : EntityManager × List Call),
      m.processEvents evs = some r → r.1.event_queue = m.event_queue := by
  induction evs with
  | nil =>
      intro m r h
      rw [EntityManager.processEvents] at h
      injection h with h
      rw [← h]
  | cons ev rest ih =>
      intro m r h
      cases ev with
      | BuildEntity e =>
          rw [EntityManager.processEvents] at h
          split at h
          · exact absurd h (by simp)
          · split at h
            · exact absurd h (by simp)
            · rename_i q hq
              injection h with h
              rw [← h]
              exact ih m q hq
      | RemoveEntity e =>
          rw [EntityManager.processEvents] at h
          split at h
          · exact absurd h (by simp)
          · split at h
            · exact absurd h (by simp)
            · rename_i q hq
              injection h with h
              rw [← h]
              rw [ih (m.remove e) q hq]
              exact remove_event_queue m e

theorem runOps_created_ids (ops : List Op) :
    ∀ (m mf : EntityManager) (created : List Entity),
      runOps m ops = some (mf, created) →
      (∀ e ∈ created, m.next_id < e.id) ∧
      created.Pairwise (fun a b => a.id < b.id) := by
  induction ops with
  | nil =>
      intro m mf created h
      rw [runOps] at h
      injection h with h
      injection h with h1 h2
      rw [← h2]
      exact ⟨by simp, List.Pairwise.nil⟩
  | cons op rest ih =>
      intro m mf created h
      cases op with
      | create =>
          rw [runOps] at h
          rcases hrun : runOps m.create.2 rest with _ | q
          · rw [hrun] at h; simp at h
          · rw [hrun] at h
            simp only [Option.map_some', Option.some.injEq,
              Prod.mk.injEq] at h
            obtain ⟨_, hcr⟩ := h
            obtain ⟨ha, hp⟩ := ih m.create.2 q.1 q.2 hrun
            have hnid : m.create.2.next_id = m.next_id + 1 := rfl
            rw [hnid] at ha
            rw [← hcr]
            refine ⟨?_, ?_⟩
            · intro e he
              rcases List.mem_cons.mp he with rfl | hmem
              · exact Nat.lt_succ_self m.next_id
              · exact Nat.lt_trans (Nat.lt_succ_self _) (ha e hmem)
            · rw [List.pairwise_cons]
              exact ⟨fun b hb => ha b hb, hp⟩
      | create_entity =>
          rw [runOps] at h
          rcases hrun : runOps m.create_entity.2 rest with _ | q
          · rw [hrun] at h; simp at h
          · rw [hrun] at h
            simp only [Option.map_some', Option.some.injEq,
              Prod.mk.injEq] at h
            obtain ⟨_, hcr⟩ := h
            obtain ⟨ha, hp⟩ := ih m.create_entity.2 q.1 q.2 hrun
            have hnid : m.create_entity.2.next_id = m.next_id + 1 := rfl
            rw [hnid] at ha
            rw [← hcr]
            refine ⟨?_, ?_⟩
            · intro e he
              rcases List.mem_cons.mp he with rfl | hmem
              · exact Nat.lt_succ_self m.next_id
              · exact Nat.lt_trans (Nat.lt_succ_self _) (ha e hmem)
            · rw [List.pairwise_cons]
              exact ⟨fun b hb => ha b hb, hp⟩
      | remove_entity e =>
          rw [runOps] at h
          exact ih (m.remove_entity e) mf created h
      | flush =>
          rw [runOps] at h
          rcases hfl : m.flush_queue with _ | fr
          · rw [hfl] at h; simp at h
          · rw [hfl] at h
            simp only [Option.bind_eq_bind, Option.some_bind] at h
            obtain ⟨ha, hp⟩ := ih fr.1 mf created h
            have hnid : fr.1.next_id = m.next_id :=
              processEvents_next_id m.event_queue
                { m with event_queue := [] } fr hfl
            rw [hnid] at ha
            exact ⟨ha, hp⟩

/-- C1: along every run of public calls (`create`, `create_entity`,
`remove_entity` with arbitrary arguments, `flush`) from a fresh manager,
the identifiers returned by `create` are all non-zero and pairwise
distinct, including identifiers of entities that have since been
removed. -/
theorem create_ids_unique_nonzero (ops : List Op) (mf : EntityManager)
    (created : List Entity)
    (h : runOps EntityManager.new ops = some (mf, created)) :
    (∀ e ∈ created, e.id ≠ 0) ∧
    created.Pairwise (fun a b => a.id ≠ b.id) := by
  obtain ⟨ha, hp⟩ := runOps_created_ids ops EntityManager.new mf created h
  constructor
  · intro e he
    have hpos : (0 : Nat) < e.id := ha e he
    exact Nat.pos_iff_ne_zero.mp hpos
  · exact hp.imp (fun hlt => Nat.ne_of_lt hlt)

/-- Witness for `create_ids_unique_nonzero`: a run with a removal and a
flush in the middle still yields distinct non-zero identifiers 1, 2, 3. -/
theorem create_ids_unique_nonzero_witness :
    (∀ e ∈ ([⟨1⟩, ⟨2⟩, ⟨3⟩] : List Entity), e.id ≠ 0) ∧
    ([⟨1⟩, ⟨2⟩, ⟨3⟩] : List Entity).Pairwise (fun a b => a.id ≠ b.id) :=
  create_ids_unique_nonzero
    [Op.create, Op.create_entity, Op.remove_entity ⟨1⟩, Op.flush, Op.create]
    (EntityManager.mk ⟨[], 2⟩
      [(⟨2⟩, ⟨1, ⟨2⟩⟩), (⟨3⟩, ⟨0, ⟨3⟩⟩)] [] 3)
    [⟨1⟩, ⟨2⟩, ⟨3⟩] (by decide)

theorem remove_entities_subset (m : EntityManager) (e : Entity)
    (kv : Entity × IndexedEntity) (h : kv ∈ (m.remove e).entities) :
    kv ∈ m.entities := by
  unfold EntityManager.remove at h
  split at h
  · exact mem_of_mem_eraseKey _ _ _ h
  · exact h

theorem processEvents_entities_subset (evs : List Event) :
    ∀ (m : EntityManager) (r : EntityManager × List Call)
      (kv : Entity × IndexedEntity),
      m.processEvents evs = some r → kv ∈ r.1.entities → kv ∈ m.entities := by
  induction evs with
  | nil =>
      intro m r kv h hmem
      rw [EntityManager.processEvents] at h
      injection h with h
      rw [← h] at hmem
      exact hmem
  | cons ev rest ih =>
      intro m r kv h hmem
      cases ev with
      | BuildEntity e =>
          rw [EntityManager.processEvents] at h
          split at h
          · exact absurd h (by simp)
          · split at h
            · exact absurd h (by simp)
            · rename_i q hq
              injection h with h
              rw [← h] at hmem
              exact ih m q kv hq hmem
      | RemoveEntity e =>
          rw [EntityManager.processEvents] at h
          split at h
          · exact absurd h (by simp)
          · split at h
            · exact absurd h (by simp)
            · rename_i q hq
              injection h with h
              rw [← h] at hmem
              exact remove_entities_subset m e kv (ih (m.remove e) q kv hq hmem)

theorem processEvents_not_contains (evs : List Event)
    (m : EntityManager) (r : EntityManager × List Call) (e : Entity)
    (hc : containsKey m.entities e = false)
    (h : m.processEvents evs = some r) :
    containsKey r.1.entities e = false := by
  rw [containsKey_eq_false_iff] at hc ⊢
  intro kv hkv
  exact hc kv (processEvents_entities_subset evs m r kv h hkv)

theorem processEvents_removed (evs : List Event) :
    ∀ (m : EntityManager) (r : EntityManager × List Call) (e : Entity),
      Event.RemoveEntity e ∈ evs →
      m.processEvents evs = some r →
      containsKey r.1.entities e = false := by
  induction evs with
  | nil => intro m r e hmem _; simp at hmem
  | cons ev rest ih =>
      intro m r e hmem h
      cases ev with
      | BuildEntity e' =>
          have hmem' : Event.RemoveEntity e ∈ rest := by
            rcases List.mem_cons.mp hmem with heq | h'
            · exact absurd heq (by simp)
            · exact h'
          rw [EntityManager.processEvents] at h
          split at h
          · exact absurd h (by simp)
          · split at h
            · exact absurd h (by simp)
            · rename_i q hq
              injection h with h
              rw [← h]
              exact ih m q e hmem' hq
      | RemoveEntity e' =>
          rw [EntityManager.processEvents] at h
          split at h
          · exact absurd h (by simp)
          · rename_i ie hie
            split at h
            · exact absurd h (by simp)
            · rename_i q hq
              injection h with h
              rw [← h]
              by_cases heq : e' = e
              · subst heq
                have hrm := remove_eq_of_lookup m e' ie hie
                have hc : containsKey (m.remove e').entities e' = false := by
                  rw [hrm]
                  exact containsKey_eraseKey_self m.entities e'
                exact processEvents_not_contains rest (m.remove e') q e' hc hq
              · have hmem' : Event.RemoveEntity e ∈ rest := by
                  rcases List.mem_cons.mp hmem with hx | h'
                  · injection hx with hx
                    exact absurd hx.symm heq
                  · exact h'
                exact ih (m.remove e') q e hmem' hq

/-- C3: an entity returned by `create` (or `create_entity`) is valid
immediately after the creating call; `remove_entity` does not modify the
identifier map at all, so `is_valid` is unchanged before the flush; after a
flush that processes the entity's `Remove` event, `is_valid` is false. -/
theorem lifecycle_validity :
    (∀ m : EntityManager, m.create.2.is_valid m.create.1 = true) ∧
    (∀ m : EntityManager,
        m.create_entity.2.is_valid m.create_entity.1 = true) ∧
    (∀ (m : EntityManager) (e : Entity),
        (m.remove_entity e).entities = m.entities) ∧
    (∀ (m : EntityManager) (e x : Entity),
        (m.remove_entity e).is_valid x = m.is_valid x) ∧
    (∀ (m m' : EntityManager) (tr : List Call) (e : Entity),
        Event.RemoveEntity e ∈ m.event_queue →
        m.flush_queue = some (m', tr) →
        m'.is_valid e = false) := by
  refine ⟨create_is_valid_self, ?_, ?_, ?_, ?_⟩
  · intro m
    exact create_is_valid_self m
  · intro m e
    rfl
  · intro m e x
    rfl
  · intro m m' tr e hmem hflush
    exact processEvents_removed m.event_queue { m with event_queue := [] }
      (m', tr) e hmem hflush

/-- Witness for `lifecycle_validity`: create entity 1, schedule its
removal, flush; afterwards entity 1 is no longer valid. -/
theorem lifecycle_validity_witness :
    (EntityManager.mk ⟨[0], 1⟩ [] [] 1).is_valid ⟨1⟩ = false :=
  lifecycle_validity.2.2.2.2
    ((EntityManager.new.create).2.remove_entity ⟨1⟩)
    (EntityManager.mk ⟨[0], 1⟩ [] [] 1)
    [Call.deactivated ⟨0, ⟨1⟩⟩, Call.removeAll ⟨0, ⟨1⟩⟩]
    ⟨1⟩ (by decide) (by decide)

theorem filteredCollect_none {α : Type} (p : α → Bool) (l : List α)
    (h : filteredNext p l = none) : filteredCollect p l = [] := by
  unfold filteredCollect
  split
  · rfl
  · rename_i x rest hx
    rw [h] at hx
    exact absurd hx (by simp)

theorem filteredCollect_some {α : Type} (p : α → Bool) (l : List α)
    (x : α) (rest : List α) (h : filteredNext p l = some (x, rest)) :
    filteredCollect p l = x :: filteredCollect p rest := by
  conv_lhs => rw [filteredCollect]
  split
  · rename_i hx
    rw [h] at hx
    exact absurd hx (by simp)
  · rename_i y rest' hx
    rw [h] at hx
    injection hx with hx
    injection hx with h1 h2
    rw [h1, h2]

theorem filteredCollect_eq_filter {α : Type} (p : α → Bool) (l : List α) :
    filteredCollect p l = l.filter p := by
  induction l with
  | nil =>
      rw [filteredCollect_none p [] rfl]
      rfl
  | cons x rest ih =>
      by_cases hp : p x
      · rw [filteredCollect_some p (x :: rest) x rest
          (by simp [filteredNext, hp]), ih, List.filter_cons, if_pos hp]
      · have hnext : filteredNext p (x :: rest) = filteredNext p rest := by
          simp [filteredNext, hp]
        have hskip : filteredCollect p (x :: rest) = filteredCollect p rest := by
          rcases hnr : filteredNext p rest with _ | yr
          · rw [filteredCollect_none p (x :: rest) (by rw [hnext, hnr]),
              filteredCollect_none p rest hnr]
          · rw [filteredCollect_some p (x :: rest) yr.1 yr.2
                (by rw [hnext, hnr]),
              filteredCollect_some p rest yr.1 yr.2 (by rw [hnr])]
        rw [hskip, ih, List.filter_cons, if_neg (by simpa using hp)]

/-- C9: driving the filtered iterator (repeated `FilteredEntityIter::next`)
over the manager's live-entity sequence until the underlying sequence is
exhausted yields exactly the elements satisfying the aspect predicate: when
exactly K of the live entities satisfy it, K elements are yielded, each of
which satisfies the predicate. -/
theorem filtered_iter_yields_filter (m : EntityManager)
    (p : IndexedEntity → Bool) :
    filteredCollect p m.iter = m.iter.filter p ∧
    (filteredCollect p m.iter).length = m.iter.countP p ∧
    ∀ x ∈ filteredCollect p m.iter, p x = true := by
  have h := filteredCollect_eq_filter p m.iter
  refine ⟨h, ?_, ?_⟩
  · rw [h, ← List.countP_eq_length_filter]
  · intro x hx
    rw [h] at hx
    exact List.of_mem_filter hx

/-- The bookkeeping invariant maintained by all reachable manager states:
the map keys are distinct, every key's identifier is bounded by the
counter, and the pool's `next_index` splits into live entries plus
recycled slots. -/
def ManagerInv (m : EntityManager) : Prop :=
  (m.entities.map Prod.fst).Nodup ∧
  (∀ kv ∈ m.entities, kv.1.id ≤ m.next_id) ∧
  m.indices.next_index = m.entities.length + m.indices.recycled.length

theorem insertKey_fresh (m : List (Entity × IndexedEntity)) (k : Entity)
    (v : IndexedEntity) (h : containsKey m k = false) :
    insertKey m k v = m ++ [(k, v)] := by
  unfold insertKey
  rw [if_neg (by simp [h])]

theorem eraseKey_of_not_contains (m : List (Entity × IndexedEntity))
    (k : Entity) (h : containsKey m k = false) : eraseKey m k = m := by
  unfold eraseKey
  apply List.filter_eq_self.mpr
  intro kv hkv
  simpa using (containsKey_eq_false_iff m k).mp h kv hkv

theorem eraseKey_length (m : List (Entity × IndexedEntity)) (k : Entity)
    (hnd : (m.map Prod.fst).Nodup) (hc : containsKey m k = true) :
    (eraseKey m k).length + 1 = m.length := by
  induction m with
  | nil => simp [containsKey] at hc
  | cons kv rest ih =>
      rw [List.map_cons, List.nodup_cons] at hnd
      obtain ⟨hnotin, hndr⟩ := hnd
      by_cases hk : kv.1 = k
      · have hcr : containsKey rest k = false := by
          rw [containsKey_eq_false_iff]
          intro kv' hkv' hk'
          exact hnotin (by
            rw [← hk] at hk'
            rw [← hk']
            exact List.mem_map_of_mem Prod.fst hkv')
        unfold eraseKey
        rw [List.filter_cons, if_neg (by simp [hk])]
        have := eraseKey_of_not_contains rest k hcr
        unfold eraseKey at this
        rw [this]
        simp
      · have hcr : containsKey rest k = true := by
          unfold containsKey at hc ⊢
          rw [List.any_cons, Bool.or_eq_true] at hc
          rcases hc with hc | hc
          · exact absurd (of_decide_eq_true hc) hk
          · exact hc
        unfold eraseKey
        rw [List.filter_cons, if_pos (by simp [hk])]
        have := ih hndr hcr
        unfold eraseKey at this
        simp only [List.length_cons]
        omega

theorem inv_new : ManagerInv EntityManager.new :=
  ⟨List.Pairwise.nil, fun kv hkv => absurd hkv (by simp [EntityManager.new]), rfl⟩

theorem inv_create (m : EntityManager) (h : ManagerInv m) : ManagerInv m.create.2 := by
  obtain ⟨hnd, hid, hpool⟩ := h
  have hfresh : containsKey m.entities ⟨m.next_id + 1⟩ = false := by
    rw [containsKey_eq_false_iff]
    intro kv hkv hk
    have h1 := hid kv hkv
    rw [hk] at h1
    have h2 : m.next_id + 1 ≤ m.next_id := h1
    exact absurd h2 (Nat.not_succ_le_self _)
  have hent : m.create.2.entities =
      m.entities ++ [(⟨m.next_id + 1⟩, ⟨(m.indices.get_index).1, ⟨m.next_id + 1⟩⟩)] :=
    insertKey_fresh _ _ _ hfresh
  refine ⟨?_, ?_, ?_⟩
  · rw [hent, List.map_append]
    rw [List.nodup_append]
    refine ⟨hnd, by simp, ?_⟩
    intro x hx
    simp only [List.map_cons, List.map_nil, List.mem_singleton]
    intro hx'
    obtain ⟨kv, hkv, hk⟩ := List.mem_map.mp hx
    rw [hx'] at hk
    have h1 := hid kv hkv
    rw [hk] at h1
    have h2 : m.next_id + 1 ≤ m.next_id := h1
    exact absurd h2 (Nat.not_succ_le_self _)
  · intro kv hkv
    rw [hent] at hkv
    rcases List.mem_append.mp hkv with hin | hin
    · have h1 := hid kv hin
      exact Nat.le_succ_of_le h1
    · rw [List.mem_singleton] at hin
      rw [hin]
      exact Nat.le.refl
  · have h3 : m.create.2.entities.length = m.entities.length + 1 := by
      rw [hent, List.length_append]
      rfl
    rcases List.eq_nil_or_concat m.indices.recycled with hnil | ⟨rs, a, hcat⟩
    · have hg := get_index_nil m.indices hnil
      have h1 : m.create.2.indices.next_index = m.indices.next_index + 1 := by
        show (m.indices.get_index).2.next_index = _
        rw [hg]
      have h2 : m.create.2.indices.recycled = [] := by
        show (m.indices.get_index).2.recycled = _
        rw [hg]
      rw [h1, h2, h3]
      rw [hnil] at hpool
      simp only [List.length_nil] at hpool ⊢
      omega
    · rw [List.concat_eq_append] at hcat
      have hg := get_index_concat m.indices rs a hcat
      have h1 : m.create.2.indices.next_index = m.indices.next_index := by
        show (m.indices.get_index).2.next_index = _
        rw [hg]
      have h2 : m.create.2.indices.recycled = rs := by
        show (m.indices.get_index).2.recycled = _
        rw [hg]
      rw [h1, h2, h3]
      rw [hcat] at hpool
      simp only [List.length_append, List.length_cons, List.length_nil] at hpool
      omega

theorem inv_create_entity (m : EntityManager) (h : ManagerInv m) :
    ManagerInv m.create_entity.2 :=
  inv_create m h

theorem inv_remove_entity (m : EntityManager) (e : Entity) (h : ManagerInv m) :
    ManagerInv (m.remove_entity e) :=
  h

theorem inv_remove (m : EntityManager) (e : Entity) (ie : IndexedEntity)
    (hlk : lookupKey m.entities e = some ie) (h : ManagerInv m) :
    ManagerInv (m.remove e) := by
  obtain ⟨hnd, hid, hpool⟩ := h
  have hrm := remove_eq_of_lookup m e ie hlk
  have hc : containsKey m.entities e = true := contains_of_lookupKey_some _ _ _ hlk
  rw [hrm]
  refine ⟨?_, ?_, ?_⟩
  · exact ((List.filter_sublist m.entities).map Prod.fst).nodup hnd
  · intro kv hkv
    exact hid kv (mem_of_mem_eraseKey _ _ _ hkv)
  · have := eraseKey_length m.entities e hnd hc
    simp only [IndexPool.return_id, List.length_append, List.length_cons,
      List.length_nil]
    omega

theorem inv_processEvents (evs : List Event) :
    ∀ (m : EntityManager) (r : EntityManager × List Call),
      ManagerInv m → m.processEvents evs = some r → ManagerInv r.1 := by
  induction evs with
  | nil =>
      intro m r hinv h
      rw [EntityManager.processEvents] at h
      injection h with h
      rw [← h]
      exact hinv
  | cons ev rest ih =>
      intro m r hinv h
      cases ev with
      | BuildEntity e =>
          rw [EntityManager.processEvents] at h
          split at h
          · exact absurd h (by simp)
          · split at h
            · exact absurd h (by simp)
            · rename_i q hq
              injection h with h
              rw [← h]
              exact ih m q hinv hq
      | RemoveEntity e =>
          rw [EntityManager.processEvents] at h
          split at h
          · exact absurd h (by simp)
          · rename_i ie hie
            split at h
            · exact absurd h (by simp)
            · rename_i q hq
              injection h with h
              rw [← h]
              exact ih (m.remove e) q (inv_remove m e ie hie hinv) hq

theorem inv_reachable (m : EntityManager) (h : Reachable m) : ManagerInv m := by
  induction h with
  | base => exact inv_new
  | create _ ih => exact inv_create _ ih
  | create_entity _ ih => exact inv_create_entity _ ih
  | remove_entity e _ ih => exact inv_remove_entity _ e ih
  | @flush mm mm' tr _ hfl ih =>
      exact inv_processEvents mm.event_queue { mm with event_queue := [] }
        (mm', tr) ih hfl

/-- C4: in every manager state reachable from `new` through the public
API, `count()` — the pool's `next_index` minus the length of its recycled
list — equals the number of keys of the identifier map, which is exactly
the number of identifiers for which `is_valid` is true. -/
theorem count_eq_live (m : EntityManager) (h : Reachable m) :
    m.count = m.entities.length ∧
    m.count = (m.entities.map Prod.fst).toFinset.card ∧
    (∀ e : Entity, m.is_valid e = true ↔ e ∈ m.entities.map Prod.fst) := by
  obtain ⟨hnd, _, hpool⟩ := inv_reachable m h
  have hc : m.count = m.entities.length := by
    unfold EntityManager.count IndexPool.count
    omega
  refine ⟨hc, ?_, ?_⟩
  · rw [hc, List.toFinset_card_of_nodup hnd, List.length_map]
  · intro e
    unfold EntityManager.is_valid
    rw [containsKey_eq_true_iff]
    constructor
    · rintro ⟨kv, hkv, rfl⟩
      exact List.mem_map_of_mem Prod.fst hkv
    · intro hm
      obtain ⟨kv, hkv, hk⟩ := List.mem_map.mp hm
      exact ⟨kv, hkv, hk⟩

/-- Witness for `count_eq_live`: reach a state through create, scheduled
removal and flush; its count equals its number of live map entries. -/
theorem count_eq_live_witness :
    (EntityManager.mk ⟨[0], 1⟩ [] [] 1).count =
      (EntityManager.mk ⟨[0], 1⟩ [] [] 1).entities.length :=
  (count_eq_live (EntityManager.mk ⟨[0], 1⟩ [] [] 1)
    (@Reachable.flush ((EntityManager.new.create).2.remove_entity ⟨1⟩)
      (EntityManager.mk ⟨[0], 1⟩ [] [] 1)
      [Call.deactivated ⟨0, ⟨1⟩⟩, Call.removeAll ⟨0, ⟨1⟩⟩]
      (Reachable.remove_entity ⟨1⟩ (Reachable.create Reachable.base))
      (by decide))).1

theorem lookupKey_entity (m : List (Entity × IndexedEntity)) (e : Entity)
    (ie : IndexedEntity) (hwf : ∀ kv ∈ m, kv.2.entity = kv.1)
    (h : lookupKey m e = some ie) : ie.entity = e := by
  obtain ⟨kv, hkv, hk, hv⟩ := lookupKey_eq_some_mem m e ie h
  rw [← hv, hwf kv hkv, hk]

theorem processEvents_trace_spec (evs : List Event) :
    ∀ (m : EntityManager) (r : EntityManager × List Call),
      m.processEvents evs = some r →
      flushSpecTrace m.entities evs = some r.2 := by
  induction evs with
  | nil =>
      intro m r h
      rw [EntityManager.processEvents] at h
      injection h with h
      rw [← h]
      rfl
  | cons ev rest ih =>
      intro m r h
      cases ev with
      | BuildEntity e =>
          rw [EntityManager.processEvents] at h
          split at h
          · exact absurd h (by simp)
          · rename_i ie hie
            split at h
            · exact absurd h (by simp)
            · rename_i q hq
              injection h with h
              rw [← h]
              rw [flushSpecTrace,
                show lookupKey m.entities e = some ie from hie, ih m q hq]
      | RemoveEntity e =>
          rw [EntityManager.processEvents] at h
          split at h
          · exact absurd h (by simp)
          · rename_i ie hie
            split at h
            · exact absurd h (by simp)
            · rename_i q hq
              injection h with h
              rw [← h]
              have hrm := remove_eq_of_lookup m e ie hie
              have hq' : flushSpecTrace (eraseKey m.entities e) rest =
                  some q.2 := by
                have := ih (m.remove e) q hq
                rw [hrm] at this
                exact this
              rw [flushSpecTrace,
                show lookupKey m.entities e = some ie from hie, hq']

theorem processEvents_counts (evs : List Event) :
    ∀ (m : EntityManager) (r : EntityManager × List Call) (e : Entity),
      (∀ kv ∈ m.entities, kv.2.entity = kv.1) →
      m.processEvents evs = some r →
      r.2.countP (Call.isActivatedOf e) =
        evs.countP (fun ev => decide (ev = Event.BuildEntity e)) ∧
      r.2.countP (Call.isDeactivatedOf e) =
        evs.countP (fun ev => decide (ev = Event.RemoveEntity e)) ∧
      r.2.countP (Call.isRemoveAllOf e) =
        evs.countP (fun ev => decide (ev = Event.RemoveEntity e)) := by
  induction evs with
  | nil =>
      intro m r e _ h
      rw [EntityManager.processEvents] at h
      injection h with h
      rw [← h]
      simp
  | cons ev rest ih =>
      intro m r e hwf h
      cases ev with
      | BuildEntity e' =>
          rw [EntityManager.processEvents] at h
          split at h
          · exact absurd h (by simp)
          · rename_i ie hie
            split at h
            · exact absurd h (by simp)
            · rename_i q hq
              injection h with h
              obtain ⟨ha, hd, hr⟩ := ih m q e hwf hq
              have hent : ie.entity = e' :=
                lookupKey_entity m.entities e' ie hwf hie
              rw [← h]
              simp only [List.countP_cons]
              refine ⟨?_, ?_, ?_⟩
              · rw [ha]
                by_cases heq : e' = e
                · subst heq
                  simp [Call.isActivatedOf, hent]
                · simp [Call.isActivatedOf, hent, heq]
              · rw [hd]
                simp [Call.isDeactivatedOf]
              · rw [hr]
                simp [Call.isRemoveAllOf]
      | RemoveEntity e' =>
          rw [EntityManager.processEvents] at h
          split at h
          · exact absurd h (by simp)
          · rename_i ie hie
            split at h
            · exact absurd h (by simp)
            · rename_i q hq
              injection h with h
              have hwf' : ∀ kv ∈ (m.remove e').entities, kv.2.entity = kv.1 :=
                fun kv hkv => hwf kv (remove_entities_subset m e' kv hkv)
              obtain ⟨ha, hd, hr⟩ := ih (m.remove e') q e hwf' hq
              have hent : ie.entity = e' :=
                lookupKey_entity m.entities e' ie hwf hie
              rw [← h]
              simp only [List.countP_cons]
              refine ⟨?_, ?_, ?_⟩
              · rw [ha]
                simp [Call.isActivatedOf]
              · rw [hd]
                by_cases heq : e' = e
                · subst heq
                  simp [Call.isDeactivatedOf, Call.isRemoveAllOf, hent]
                · simp [Call.isDeactivatedOf, Call.isRemoveAllOf, hent, heq]
              · rw [hr]
                by_cases heq : e' = e
                · subst heq
                  simp [Call.isDeactivatedOf, Call.isRemoveAllOf, hent]
                · simp [Call.isDeactivatedOf, Call.isRemoveAllOf, hent, heq]

theorem nodup_keys_remove (m : EntityManager) (e : Entity)
    (hnd : (m.entities.map Prod.fst).Nodup) :
    ((m.remove e).entities.map Prod.fst).Nodup := by
  unfold EntityManager.remove
  split
  · exact ((List.filter_sublist m.entities).map Prod.fst).nodup hnd
  · exact hnd

theorem processEvents_length (evs : List Event) :
    ∀ (m : EntityManager) (r : EntityManager × List Call),
      (m.entities.map Prod.fst).Nodup →
      m.processEvents evs = some r →
      r.1.entities.length + evs.countP Event.isRemove = m.entities.length ∧
      r.1.indices.recycled.length =
        m.indices.recycled.length + evs.countP Event.isRemove := by
  induction evs with
  | nil =>
      intro m r _ h
      rw [EntityManager.processEvents] at h
      injection h with h
      rw [← h]
      simp
  | cons ev rest ih =>
      intro m r hnd h
      cases ev with
      | BuildEntity e =>
          rw [EntityManager.processEvents] at h
          split at h
          · exact absurd h (by simp)
          · split at h
            · exact absurd h (by simp)
            · rename_i q hq
              injection h with h
              obtain ⟨h1, h2⟩ := ih m q hnd hq
              rw [← h]
              simp only [List.countP_cons, Event.isRemove]
              constructor
              · simpa using h1
              · simpa using h2
      | RemoveEntity e =>
          rw [EntityManager.processEvents] at h
          split at h
          · exact absurd h (by simp)
          · rename_i ie hie
            split at h
            · exact absurd h (by simp)
            · rename_i q hq
              injection h with h
              have hnd' := nodup_keys_remove m e hnd
              obtain ⟨h1, h2⟩ := ih (m.remove e) q hnd' hq
              have hrm := remove_eq_of_lookup m e ie hie
              have hc : containsKey m.entities e = true :=
                contains_of_lookupKey_some _ _ _ hie
              have hel : (eraseKey m.entities e).length + 1 =
                  m.entities.length := eraseKey_length m.entities e hnd hc
              have hent2 : (m.remove e).entities = eraseKey m.entities e := by
                rw [hrm]
              have hrec : (m.remove e).indices.recycled.length =
                  m.indices.recycled.length + 1 := by
                rw [hrm]
                simp [IndexPool.return_id]
              rw [hent2] at h1
              rw [hrec] at h2
              rw [← h]
              simp only [List.countP_cons, Event.isRemove]
              constructor
              · simp only [if_true]
                omega
              · simp only [if_true]
                omega

/-- C2: a successful `flush_queue` processes exactly the events present in
the log when it was called, in FIFO order: the queue is empty afterwards
(notification callbacks cannot reach the manager, so nothing new is
processed in this call); the emitted collaborator trace is exactly the one
prescribed by the specification's per-event description (`flushSpecTrace`:
activation per `FinalizeCreation`; deactivation, then attribute strip, then
binding removal and index return per `Remove`); per identifier, the
activation count equals its `FinalizeCreation` event count and the
deactivation and strip counts equal its `Remove` event count; and each
`Remove` event removes exactly one map binding and recycles exactly one
index. -/
theorem flush_queue_refines_spec (m m' : EntityManager) (tr : List Call)
    (hwf : ∀ kv ∈ m.entities, kv.2.entity = kv.1)
    (hnd : (m.entities.map Prod.fst).Nodup)
    (h : m.flush_queue = some (m', tr)) :
    m'.event_queue = [] ∧
    flushSpecTrace m.entities m.event_queue = some tr ∧
    (∀ e : Entity,
      tr.countP (Call.isActivatedOf e) =
        m.event_queue.countP (fun ev => decide (ev = Event.BuildEntity e)) ∧
      tr.countP (Call.isDeactivatedOf e) =
        m.event_queue.countP (fun ev => decide (ev = Event.RemoveEntity e)) ∧
      tr.countP (Call.isRemoveAllOf e) =
        m.event_queue.countP (fun ev => decide (ev = Event.RemoveEntity e))) ∧
    m'.entities.length + m.event_queue.countP Event.isRemove =
      m.entities.length ∧
    m'.indices.recycled.length =
      m.indices.recycled.length + m.event_queue.countP Event.isRemove := by
  refine ⟨?_, ?_, ?_, ?_, ?_⟩
  · exact processEvents_event_queue m.event_queue
      { m with event_queue := [] } (m', tr) h
  · exact processEvents_trace_spec m.event_queue
      { m with event_queue := [] } (m', tr) h
  · intro e
    exact processEvents_counts m.event_queue
      { m with event_queue := [] } (m', tr) e hwf h
  · exact (processEvents_length m.event_queue
      { m with event_queue := [] } (m', tr) hnd h).1
  · exact (processEvents_length m.event_queue
      { m with event_queue := [] } (m', tr) hnd h).2

/-- Witness for `flush_queue_refines_spec`: create entity 1, create entity
2 with a builder, schedule removal of entity 1, flush; the trace is
exactly activation of 2 followed by deactivation and strip of 1. -/
theorem flush_queue_refines_spec_witness :
    flushSpecTrace [(⟨1⟩, ⟨0, ⟨1⟩⟩), (⟨2⟩, ⟨1, ⟨2⟩⟩)]
        [Event.BuildEntity ⟨2⟩, Event.RemoveEntity ⟨1⟩] =
      some [Call.activated ⟨1, ⟨2⟩⟩, Call.deactivated ⟨0, ⟨1⟩⟩,
            Call.removeAll ⟨0, ⟨1⟩⟩] :=
  (flush_queue_refines_spec
    (((EntityManager.new.create).2.create_entity).2.remove_entity ⟨1⟩)
    (EntityManager.mk ⟨[0], 2⟩ [(⟨2⟩, ⟨1, ⟨2⟩⟩)] [] 2)
    [Call.activated ⟨1, ⟨2⟩⟩, Call.deactivated ⟨0, ⟨1⟩⟩,
     Call.removeAll ⟨0, ⟨1⟩⟩]
    (by decide) (by decide) (by decide)).2.1
